import Mathlib

/-!
Verification of the Merkle-tree library in `src/lib.rs`.

The Rust code is embedded shallowly:

* Bytes are modelled as `Nat`, byte buffers as `List Nat`.
* The two SHA-256 primitives `hash_data` / `hash_pair` come from the external
  `sha2` crate; every definition and theorem below is parametric in a digest
  type `H` and in the two functions `hash_data : List Nat → H` and
  `hash_pair : H → H → H`, so each proved statement holds in particular for
  the real SHA-256 instantiation.  Concrete instantiations (used for
  witnesses and counterexamples) pick `H := List Nat`, `hash_data := id`,
  `hash_pair := (· ++ ·)`.
* Rust panics (division by zero, `chunks(0)`, out-of-bounds indexing) and
  divergence of the `while` loop in `path` are modelled as `none` of an
  `Option` result.
-/

/-- One slot of the tree, Rust's `struct Node { value: [u8; 32] }`. -/
structure Node (H : Type) where
  value : H
deriving DecidableEq

instance {H : Type} [Inhabited H] : Inhabited (Node H) := ⟨⟨default⟩⟩

/-- Rust's `struct MerkleTree { nodes: Vec<Node>, leaves: usize }`. -/
structure MerkleTree (H : Type) where
  nodes : List (Node H)
  leaves : Nat
deriving DecidableEq

section Defs

variable {H : Type} [DecidableEq H] [Inhabited H]
variable (hash_data : List Nat → H) (hash_pair : H → H → H)

/-- Rust's `Node::as_leaf(data) = Node::new(hash_data(data))`. -/
def Node.as_leaf (data : List Nat) : Node H :=
  ⟨hash_data data⟩

/-- Rust's `Node::as_parent(left, right) = Node::new(hash_pair(&left.value, &right.value))`. -/
def Node.as_parent (left right : Node H) : Node H :=
  ⟨hash_pair left.value right.value⟩

/-- Worker for Rust's `slice::chunks(c)`: splits a list into consecutive
chunks of `c` elements, the last chunk possibly shorter; every element is
covered.  The `fuel` argument makes the recursion structural; callers pass
`fuel = xs.length`, which is enough whenever `1 ≤ c` (each step consumes at
least one element). -/
def chunksGo (c : Nat) : Nat → List α → List (List α)
  | _, [] => []
  | 0, _ :: _ => []
  | fuel + 1, x :: xs => (x :: xs).take c :: chunksGo c fuel ((x :: xs).drop c)

/-- Rust's `data.chunks(c)` collected into a list.  `c = 0` panics in Rust;
here it yields `[]`, and `MerkleTree.new` returns `none` before ever calling
`chunksList` with `c = 0`. -/
def chunksList (c : Nat) (xs : List α) : List (List α) :=
  chunksGo c xs.length xs

/-- The `for idx in 0..(leaves - 1)` loop body of `MerkleTree::new`:
`nodes.push(Node::as_parent(&nodes[2*idx+1], &nodes[2*idx]))`, iterated
`k` more times starting at iteration counter `idx`.  An out-of-bounds
index (a Rust panic) yields `none`. -/
def buildFrom (nodes : List (Node H)) (idx : Nat) : Nat → Option (List (Node H))
  | 0 => some nodes
  | k + 1 =>
    match nodes.get? (2 * idx + 1), nodes.get? (2 * idx) with
    | some a, some b => buildFrom (nodes ++ [Node.as_parent hash_pair a b]) (idx + 1) k
    | _, _ => none

/-- Rust's `MerkleTree::new(data, leaves)`.  Rust panics on `leaves == 0`
(division by zero in `data.len() / leaves`) and on `chunk_size == 0`
(`data.chunks(0)`); both panics are modelled by `none`. -/
def MerkleTree.new (data : List Nat) (leaves : Nat) : Option (MerkleTree H) :=
  if leaves = 0 then none
  else
    let chunkSize := data.length / leaves
    if chunkSize = 0 then none
    else
      let leafNodes := (chunksList chunkSize data).map (Node.as_leaf hash_data)
      (buildFrom hash_pair leafNodes 0 (leaves - 1)).map fun ns =>
        { nodes := ns, leaves := leaves }

/-- Rust's `MerkleTree::size() = self.nodes.len()`. -/
def MerkleTree.size (t : MerkleTree H) : Nat :=
  t.nodes.length

/-- Rust's `MerkleTree::root() = self.nodes[self.size() - 1].value`; the indexing
panic is unreachable for every tree returned by `new` (its node list is
nonempty). -/
def MerkleTree.root (t : MerkleTree H) : H :=
  (t.nodes.getD (t.size - 1) default).value

/-- Rust's `MerkleTree::parent_idx(idx) = idx / 2 + self.leaves()`. -/
def MerkleTree.parent_idx (t : MerkleTree H) (idx : Nat) : Nat :=
  idx / 2 + t.leaves

/-- Rust's `MerkleTree::sibling_idx(idx)`: `idx + 1` for even `idx`, `idx - 1` for
odd `idx`. -/
def MerkleTree.sibling_idx (t : MerkleTree H) (idx : Nat) : Nat :=
  if idx % 2 = 0 then idx + 1 else idx - 1

/-- Rust's `MerkleTree::left_idx(idx) = 2 * (idx - self.leaves()) + 1` (meaningful
only for internal nodes, `idx ≥ leaves`). -/
def MerkleTree.left_idx (t : MerkleTree H) (idx : Nat) : Nat :=
  2 * (idx - t.leaves) + 1

/-- Rust's `MerkleTree::right_idx(idx) = 2 * (idx - self.leaves())` (meaningful
only for internal nodes, `idx ≥ leaves`). -/
def MerkleTree.right_idx (t : MerkleTree H) (idx : Nat) : Nat :=
  2 * (idx - t.leaves)

/-- The `while cidx != self.size() - 1` loop of `MerkleTree::path`, with
explicit fuel.  Each iteration pushes
`(self.nodes[self.sibling_idx(cidx)].value, (cidx % 2) != 0)` and steps to
`parent_idx(cidx)`.  `none` models an out-of-bounds sibling access (a Rust
panic) or fuel exhaustion (the Rust loop diverging). -/
def pathAux (t : MerkleTree H) : Nat → Nat → Option (List (H × Bool))
  | 0, _ => none
  | fuel + 1, cidx =>
    if cidx = t.size - 1 then some []
    else
      match t.nodes.get? (t.sibling_idx cidx) with
      | none => none
      | some sib =>
        (pathAux t fuel (t.parent_idx cidx)).map fun rest =>
          (sib.value, cidx % 2 != 0) :: rest

/-- Rust's `MerkleTree::path(idx)`.  The fuel `2 * size + 2` is ample: whenever the
Rust loop terminates it does so in fewer iterations, so `none` here means
the Rust loop diverges or panics on an out-of-bounds access. -/
def MerkleTree.path (t : MerkleTree H) (idx : Nat) : Option (List (H × Bool)) :=
  pathAux t (2 * t.size + 2) idx

/-- Rust's `MerkleTree::proof(item, idx)`: `None` when
`idx >= self.size() || hash_data(item) != self.nodes[idx].value`
(the `||` is short-circuiting, so an out-of-range `idx` never touches the
node array), otherwise `Some(self.path(idx))`. -/
def MerkleTree.proof (t : MerkleTree H) (item : List Nat) (idx : Nat) :
    Option (List (H × Bool)) :=
  if t.size ≤ idx then none
  else
    match t.nodes.get? idx with
    | none => none
    | some nd => if hash_data item = nd.value then t.path idx else none

/-- The `for (hash, parity) in proof.iter()` loop of `verify_proof`,
threading the `candidate` accumulator. -/
def verifyLoop (candidate : H) : List (H × Bool) → H
  | [] => candidate
  | (hash, parity) :: rest =>
    verifyLoop (if parity then hash_pair candidate hash else hash_pair hash candidate) rest

/-- Rust's `verify_proof(item, root, proof)`. -/
def verify_proof (item : List Nat) (root : H) (pf : List (H × Bool)) : Bool :=
  verifyLoop hash_pair (hash_data item) pf == root

/-- Modelled from the spec (§4.5 Proof verifier), for the refinement claim
about `verify_proof`: start from `hashLeaf(item)` and fold over the proof,
placing the candidate left of the sibling when the parity flag is true and
right of it otherwise, then compare with the expected root. -/
def verifySpec (item : List Nat) (root : H) (pf : List (H × Bool)) : Bool :=
  (pf.foldl
    (fun candidate p =>
      if p.2 then hash_pair candidate p.1 else hash_pair p.1 candidate)
    (hash_data item)) == root

end Defs

/-! ### Concrete instantiation used by witnesses and counterexamples -/

/-- Concrete stand-in for `hash_data` (`H := List Nat`): the identity. -/
def exHash (xs : List Nat) : List Nat := xs

/-- Concrete stand-in for `hash_pair`: concatenation (non-commutative, like
a real digest of `left ++ right`). -/
def exPair (a b : List Nat) : List Nat := a ++ b

/-- The tree `MerkleTree::new([0,1,2,3], 2)` under `exHash`/`exPair`:
leaves `[0,1]`, `[2,3]`, root `hash_pair(nodes[1], nodes[0]) = [2,3,0,1]`. -/
def exTree : MerkleTree (List Nat) :=
  { nodes := [⟨[0, 1]⟩, ⟨[2, 3]⟩, ⟨[2, 3, 0, 1]⟩], leaves := 2 }

/-- The tree `MerkleTree::new([0,1,2], 2)` under `exHash`/`exPair`:
chunk size `3 / 2 = 1`, so `chunks(1)` yields three leaves. -/
def exTree3 : MerkleTree (List Nat) :=
  { nodes := [⟨[0]⟩, ⟨[1]⟩, ⟨[2]⟩, ⟨[1, 0]⟩], leaves := 2 }

/-- The tree `MerkleTree::new([0,1,2,3,4,5,6], 4)` under `exHash`/`exPair`:
chunk size `7 / 4 = 1`, so `chunks(1)` yields seven leaves and the three
internal nodes pair up only the first four of them. -/
def exTree7 : MerkleTree (List Nat) :=
  { nodes := [⟨[0]⟩, ⟨[1]⟩, ⟨[2]⟩, ⟨[3]⟩, ⟨[4]⟩, ⟨[5]⟩, ⟨[6]⟩,
              ⟨[1, 0]⟩, ⟨[3, 2]⟩, ⟨[5, 4]⟩], leaves := 4 }

example : MerkleTree.new exHash exPair [0, 1, 2, 3] 2 = some exTree := by decide
example : MerkleTree.new exHash exPair [0, 1, 2] 2 = some exTree3 := by decide
example : MerkleTree.new exHash exPair [0, 1, 2, 3, 4, 5, 6] 4 = some exTree7 := by decide

/-! ### Lemmas about `chunksGo` / `chunksList` -/

lemma chunksGo_nil {α : Type} (c fuel : Nat) : chunksGo c fuel ([] : List α) = [] := by
  cases fuel <;> rfl

lemma chunksGo_length_exact {α : Type} (c : Nat) (hc : 0 < c) :
    ∀ (L : Nat) (xs : List α) (fuel : Nat),
      xs.length = L * c → xs.length ≤ fuel → (chunksGo c fuel xs).length = L := by
  intro L
  induction L with
  | zero =>
    intro xs fuel hlen _
    have hx : xs = [] := List.length_eq_zero.mp (by omega)
    subst hx
    simp [chunksGo_nil]
  | succ L ih =>
    intro xs fuel hlen hfuel
    have hmul : (L + 1) * c = L * c + c := Nat.succ_mul L c
    have hpos : 0 < xs.length := by omega
    match xs, fuel with
    | x :: xs', fuel + 1 =>
      show ((x :: xs').take c :: chunksGo c fuel ((x :: xs').drop c)).length = L + 1
      have hdroplen : ((x :: xs').drop c).length = L * c := by
        rw [List.length_drop]
        simp only [List.length_cons] at hlen ⊢
        omega
      have hdropfuel : ((x :: xs').drop c).length ≤ fuel := by
        rw [List.length_drop]
        simp only [List.length_cons] at hfuel ⊢
        omega
      rw [List.length_cons, ih _ fuel hdroplen hdropfuel]

lemma chunksGo_length_ge {α : Type} (c : Nat) (hc : 0 < c) :
    ∀ (L : Nat) (xs : List α) (fuel : Nat),
      L * c ≤ xs.length → xs.length ≤ fuel → L ≤ (chunksGo c fuel xs).length := by
  intro L
  induction L with
  | zero => intro xs fuel _ _; omega
  | succ L ih =>
    intro xs fuel hlen hfuel
    have hmul : (L + 1) * c = L * c + c := Nat.succ_mul L c
    have hpos : 0 < xs.length := by omega
    match xs, fuel with
    | x :: xs', fuel + 1 =>
      show L + 1 ≤ ((x :: xs').take c :: chunksGo c fuel ((x :: xs').drop c)).length
      have hdroplen : L * c ≤ ((x :: xs').drop c).length := by
        rw [List.length_drop]
        simp only [List.length_cons] at hlen ⊢
        omega
      have hdropfuel : ((x :: xs').drop c).length ≤ fuel := by
        rw [List.length_drop]
        simp only [List.length_cons] at hfuel ⊢
        omega
      have := ih _ fuel hdroplen hdropfuel
      rw [List.length_cons]
      omega

lemma chunksGo_length_gt {α : Type} (c : Nat) (hc : 0 < c) :
    ∀ (L : Nat) (xs : List α) (fuel : Nat),
      L * c < xs.length → xs.length ≤ fuel → L < (chunksGo c fuel xs).length := by
  intro L
  induction L with
  | zero =>
    intro xs fuel hlen hfuel
    match xs, fuel with
    | x :: xs', fuel + 1 =>
      show 0 < ((x :: xs').take c :: chunksGo c fuel ((x :: xs').drop c)).length
      simp
  | succ L ih =>
    intro xs fuel hlen hfuel
    have hmul : (L + 1) * c = L * c + c := Nat.succ_mul L c
    have hpos : 0 < xs.length := by omega
    match xs, fuel with
    | x :: xs', fuel + 1 =>
      show L + 1 < ((x :: xs').take c :: chunksGo c fuel ((x :: xs').drop c)).length
      have hdroplen : L * c < ((x :: xs').drop c).length := by
        rw [List.length_drop]
        simp only [List.length_cons] at hlen ⊢
        omega
      have hdropfuel : ((x :: xs').drop c).length ≤ fuel := by
        rw [List.length_drop]
        simp only [List.length_cons] at hfuel ⊢
        omega
      have := ih _ fuel hdroplen hdropfuel
      rw [List.length_cons]
      omega

lemma chunksGo_join {α : Type} (c : Nat) (hc : 0 < c) :
    ∀ (fuel : Nat) (xs : List α), xs.length ≤ fuel → (chunksGo c fuel xs).flatten = xs := by
  intro fuel
  induction fuel with
  | zero =>
    intro xs h
    have hx : xs = [] := List.length_eq_zero.mp (by omega)
    subst hx
    rfl
  | succ fuel ih =>
    intro xs h
    match xs with
    | [] => rfl
    | x :: xs' =>
      show ((x :: xs').take c :: chunksGo c fuel ((x :: xs').drop c)).flatten = x :: xs'
      have hdropfuel : ((x :: xs').drop c).length ≤ fuel := by
        rw [List.length_drop]
        simp only [List.length_cons] at h ⊢
        omega
      rw [List.flatten_cons, ih _ hdropfuel, List.take_append_drop]

lemma chunksList_length_exact {α : Type} {c L : Nat} {xs : List α} (hc : 0 < c)
    (hlen : xs.length = L * c) : (chunksList c xs).length = L :=
  chunksGo_length_exact c hc L xs xs.length hlen le_rfl

lemma chunksList_length_ge {α : Type} {c L : Nat} {xs : List α} (hc : 0 < c)
    (hlen : L * c ≤ xs.length) : L ≤ (chunksList c xs).length :=
  chunksGo_length_ge c hc L xs xs.length hlen le_rfl

lemma chunksList_length_gt {α : Type} {c L : Nat} {xs : List α} (hc : 0 < c)
    (hlen : L * c < xs.length) : L < (chunksList c xs).length :=
  chunksGo_length_gt c hc L xs xs.length hlen le_rfl

lemma chunksList_join {α : Type} {c : Nat} (hc : 0 < c) (xs : List α) :
    (chunksList c xs).flatten = xs :=
  chunksGo_join c hc xs.length xs le_rfl

/-! ### Lemmas about `buildFrom` and `MerkleTree.new` -/

section BuildLemmas

variable {H : Type} [DecidableEq H] [Inhabited H]
variable (hash_data : List Nat → H) (hash_pair : H → H → H)

lemma buildFrom_isSome :
    ∀ (k idx : Nat) (nodes : List (Node H)), 2 * idx + k + 1 ≤ nodes.length →
      ∃ out, buildFrom hash_pair nodes idx k = some out := by
  intro k
  induction k with
  | zero => intro idx nodes _; exact ⟨nodes, rfl⟩
  | succ k ih =>
    intro idx nodes hlen
    have h1 : 2 * idx + 1 < nodes.length := by omega
    have h0 : 2 * idx < nodes.length := by omega
    have hg1 : nodes.get? (2 * idx + 1) = some (nodes.get ⟨2 * idx + 1, h1⟩) :=
      List.get?_eq_get h1
    have hg0 : nodes.get? (2 * idx) = some (nodes.get ⟨2 * idx, h0⟩) :=
      List.get?_eq_get h0
    have hlen' :
        2 * (idx + 1) + k + 1 ≤
          (nodes ++ [Node.as_parent hash_pair (nodes.get ⟨2 * idx + 1, h1⟩)
              (nodes.get ⟨2 * idx, h0⟩)]).length := by
      rw [List.length_append]
      simp only [List.length_singleton]
      omega
    obtain ⟨out, hout⟩ := ih (idx + 1) _ hlen'
    refine ⟨out, ?_⟩
    rw [buildFrom, hg1, hg0]
    exact hout

lemma buildFrom_spec :
    ∀ (k idx : Nat) (nodes out : List (Node H)),
      buildFrom hash_pair nodes idx k = some out →
      out.length = nodes.length + k ∧
      (∀ i, i < nodes.length → out.get? i = nodes.get? i) ∧
      (∀ j, idx ≤ j → j < idx + k →
        ∃ a b, out.get? (2 * j + 1) = some a ∧ out.get? (2 * j) = some b ∧
          out.get? (nodes.length + (j - idx)) = some (Node.as_parent hash_pair a b)) := by
  intro k
  induction k with
  | zero =>
    intro idx nodes out hout
    have : nodes = out := by simpa [buildFrom] using hout
    subst this
    exact ⟨by simp, fun i _ => rfl, fun j h1 h2 => by omega⟩
  | succ k ih =>
    intro idx nodes out hout
    rw [buildFrom] at hout
    cases hg1 : nodes.get? (2 * idx + 1) with
    | none => rw [hg1] at hout; exact absurd hout (by simp)
    | some a =>
      cases hg0 : nodes.get? (2 * idx) with
      | none => rw [hg1, hg0] at hout; exact absurd hout (by simp)
      | some b =>
        rw [hg1, hg0] at hout
        obtain ⟨hlen, hpre, hpar⟩ := ih (idx + 1) _ out hout
        rw [List.length_append, List.length_singleton] at hlen
        have h1 : 2 * idx + 1 < nodes.length := by
          obtain ⟨h, -⟩ := List.get?_eq_some.mp hg1
          exact h
        have h0 : 2 * idx < nodes.length := by omega
        have hpre' : ∀ i, i < nodes.length → out.get? i = nodes.get? i := by
          intro i hi
          rw [hpre i (by rw [List.length_append, List.length_singleton]; omega),
            List.get?_append hi]
        refine ⟨by omega, hpre', ?_⟩
        intro j hj1 hj2
        by_cases hji : j = idx
        · subst hji
          refine ⟨a, b, ?_, ?_, ?_⟩
          · rw [hpre' _ h1]; exact hg1
          · rw [hpre' _ h0]; exact hg0
          · have hn : nodes.length < (nodes ++ [Node.as_parent hash_pair a b]).length := by
              rw [List.length_append, List.length_singleton]; omega
            rw [Nat.sub_self, Nat.add_zero, hpre nodes.length hn,
              List.get?_concat_length]
        · obtain ⟨a', b', ha', hb', hp'⟩ := hpar j (by omega) (by omega)
          refine ⟨a', b', ha', hb', ?_⟩
          have heq :
              (nodes ++ [Node.as_parent hash_pair a b]).length + (j - (idx + 1)) =
                nodes.length + (j - idx) := by
            rw [List.length_append, List.length_singleton]
            omega
          rw [← heq]
          exact hp'

/-- Lemma: `MerkleTree::new` "fails fast" (panics) exactly on `leaves == 0` or
`data.len() < leaves`; on all other inputs it returns a tree. -/
lemma new_eq_none_iff (data : List Nat) (leaves : Nat) :
    MerkleTree.new hash_data hash_pair data leaves = none ↔
      leaves = 0 ∨ data.length < leaves := by
  by_cases hL : leaves = 0
  · simp [MerkleTree.new, hL]
  · have hLpos : 0 < leaves := Nat.pos_of_ne_zero hL
    by_cases hcs : data.length / leaves = 0
    · have hlt : data.length < leaves := by
        by_contra h
        push_neg at h
        have h1 : 1 ≤ data.length / leaves :=
          (Nat.le_div_iff_mul_le hLpos).mpr (by omega)
        omega
      simp [MerkleTree.new, hL, hcs, hlt]
    · have hlge : leaves ≤ data.length := by
        rcases Nat.lt_or_ge data.length leaves with h | h
        · exact absurd (Nat.div_eq_of_lt h) hcs
        · exact h
      have hcpos : 0 < data.length / leaves := Nat.pos_of_ne_zero hcs
      have hchunks : leaves ≤ (chunksList (data.length / leaves) data).length := by
        refine chunksList_length_ge hcpos ?_
        calc leaves * (data.length / leaves) = data.length / leaves * leaves :=
              Nat.mul_comm _ _
          _ ≤ data.length := Nat.div_mul_le_self _ _
      obtain ⟨out, hout⟩ := buildFrom_isSome hash_pair (leaves - 1) 0
        ((chunksList (data.length / leaves) data).map (Node.as_leaf hash_data))
        (by rw [List.length_map]; omega)
      simp [MerkleTree.new, hL, hcs, hout]
      omega

/-- Structure of a tree built from exactly divisible data: `leaves` is
recorded, the node array has `2 * leaves - 1` entries, and every internal
slot `leaves + j` holds `hash_pair` of slots `2*j+1` and `2*j` in that
order. -/
lemma new_wf {data : List Nat} {leaves : Nat} {t : MerkleTree H}
    (hdvd : data.length % leaves = 0)
    (hnew : MerkleTree.new hash_data hash_pair data leaves = some t) :
    t.leaves = leaves ∧ t.nodes.length = 2 * leaves - 1 ∧
      ∀ j, j < leaves - 1 →
        ∃ a b, t.nodes.get? (2 * j + 1) = some a ∧ t.nodes.get? (2 * j) = some b ∧
          t.nodes.get? (leaves + j) = some (Node.as_parent hash_pair a b) := by
  have hL : leaves ≠ 0 := by
    intro h
    rw [h] at hnew
    simp [MerkleTree.new] at hnew
  have hcs : data.length / leaves ≠ 0 := by
    intro h
    rw [MerkleTree.new] at hnew
    rw [if_neg hL] at hnew
    simp only [h, if_pos rfl] at hnew
    exact absurd hnew (by simp)
  have hexact : data.length = leaves * (data.length / leaves) :=
    (Nat.mul_div_cancel' (Nat.dvd_of_mod_eq_zero hdvd)).symm
  have hchunks : (chunksList (data.length / leaves) data).length = leaves :=
    chunksList_length_exact (Nat.pos_of_ne_zero hcs) hexact
  rw [MerkleTree.new] at hnew
  rw [if_neg hL] at hnew
  simp only [if_neg hcs] at hnew
  cases hb : buildFrom hash_pair
      ((chunksList (data.length / leaves) data).map (Node.as_leaf hash_data)) 0
      (leaves - 1) with
  | none => rw [hb] at hnew; exact absurd hnew (by simp)
  | some out =>
    rw [hb] at hnew
    simp only [Option.map_some', Option.some_inj] at hnew
    obtain ⟨hlen, hpre, hpar⟩ := buildFrom_spec hash_pair (leaves - 1) 0 _ out hb
    rw [List.length_map, hchunks] at hlen
    have ht1 : t.leaves = leaves := by rw [← hnew]
    have ht2 : t.nodes = out := by rw [← hnew]
    refine ⟨ht1, by rw [ht2]; omega, ?_⟩
    intro j hj
    obtain ⟨a, b, ha, hb', hp⟩ := hpar j (by omega) (by omega)
    rw [List.length_map, hchunks, Nat.sub_zero] at hp
    exact ⟨a, b, by rw [ht2]; exact ha, by rw [ht2]; exact hb', by rw [ht2]; exact hp⟩

end BuildLemmas

/-! ### Lemmas about `pathAux`, `path`, `proof`, and `verifyLoop` -/

section PathLemmas

variable {H : Type} [DecidableEq H] [Inhabited H]
variable (hash_data : List Nat → H) (hash_pair : H → H → H)

lemma pathAux_mono {t : MerkleTree H} :
    ∀ (fuel fuel' cidx : Nat) (p : List (H × Bool)),
      pathAux t fuel cidx = some p → fuel ≤ fuel' → pathAux t fuel' cidx = some p := by
  intro fuel
  induction fuel with
  | zero => intro fuel' cidx p h _; exact absurd h (by simp [pathAux])
  | succ fuel ih =>
    intro fuel' cidx p h hle
    cases fuel' with
    | zero => omega
    | succ fuel'' =>
      rw [pathAux] at h ⊢
      by_cases hroot : cidx = t.size - 1
      · rw [if_pos hroot] at h ⊢; exact h
      · rw [if_neg hroot] at h ⊢
        cases hs : t.nodes.get? (t.sibling_idx cidx) with
        | none =>
          rw [hs] at h
          exact absurd h (by simp)
        | some sib =>
          rw [hs] at h
          cases hp : pathAux t fuel (t.parent_idx cidx) with
          | none =>
            rw [hp] at h
            exact absurd h (by simp)
          | some rest =>
            rw [hp] at h
            rw [ih fuel'' _ rest hp (by omega)]
            exact h

/-- Walking the `path` loop from any index at or below the root of a
well-formed tree terminates at the root, and replaying the collected
sibling/parity pairs with the `verify_proof` loop rebuilds the root hash. -/
lemma pathAux_replay {t : MerkleTree H} {L : Nat}
    (hleaves : t.leaves = L) (hL : 1 ≤ L) (hsz : t.nodes.length = 2 * L - 1)
    (hparent : ∀ j, j < L - 1 →
      ∃ a b, t.nodes.get? (2 * j + 1) = some a ∧ t.nodes.get? (2 * j) = some b ∧
        t.nodes.get? (L + j) = some (Node.as_parent hash_pair a b))
    {rt : Node H} (hroot : t.nodes.get? (2 * L - 2) = some rt) :
    ∀ (fuel cidx : Nat) (v : Node H), cidx ≤ 2 * L - 2 → 2 * L - 2 - cidx < fuel →
      t.nodes.get? cidx = some v →
      ∃ p, pathAux t fuel cidx = some p ∧ verifyLoop hash_pair v.value p = rt.value := by
  have hsize : t.size = 2 * L - 1 := hsz
  intro fuel
  induction fuel with
  | zero => intro cidx v h1 h2 h3; omega
  | succ fuel ih =>
    intro cidx v hle hfuel hv
    by_cases hatroot : cidx = t.size - 1
    · have hc : cidx = 2 * L - 2 := by omega
      have hvrt : v = rt := by
        rw [hc] at hv
        rw [hv] at hroot
        exact Option.some_inj.mp hroot
      refine ⟨[], ?_, ?_⟩
      · rw [pathAux, if_pos hatroot]
      · rw [verifyLoop, hvrt]
    · have hlt : cidx < 2 * L - 2 := by omega
      have hL2 : 2 ≤ L := by omega
      have hdm : 2 * (cidx / 2) + cidx % 2 = cidx := Nat.div_add_mod cidx 2
      have hmlt : cidx % 2 < 2 := Nat.mod_lt cidx (by omega)
      have hjlt : cidx / 2 < L - 1 := by omega
      obtain ⟨a, b, ha, hb, hp⟩ := hparent (cidx / 2) hjlt
      have hpar_idx : t.parent_idx cidx = L + cidx / 2 := by
        rw [MerkleTree.parent_idx, hleaves]
        omega
      have hple : L + cidx / 2 ≤ 2 * L - 2 := by omega
      have hpfuel : 2 * L - 2 - (L + cidx / 2) < fuel := by omega
      obtain ⟨p', hp', hrep⟩ :=
        ih (L + cidx / 2) (Node.as_parent hash_pair a b) hple hpfuel hp
      by_cases hm : cidx % 2 = 0
      · -- even current index: second operand of the parent hash
        have hc : cidx = 2 * (cidx / 2) := by omega
        have hsib : t.sibling_idx cidx = 2 * (cidx / 2) + 1 := by
          rw [MerkleTree.sibling_idx, if_pos hm]
          omega
        have hvb : v = b := by
          rw [hc] at hv
          rw [hv] at hb
          exact Option.some_inj.mp hb
        refine ⟨(a.value, cidx % 2 != 0) :: p', ?_, ?_⟩
        · rw [pathAux, if_neg hatroot, hsib, ha, hpar_idx, hp']
          rfl
        · rw [hm]
          show verifyLoop hash_pair v.value ((a.value, false) :: p') = rt.value
          rw [verifyLoop]
          simp only [Bool.false_eq_true, if_false]
          rw [hvb]
          simpa [Node.as_parent] using hrep
      · -- odd current index: first operand of the parent hash
        have hm1 : cidx % 2 = 1 := by omega
        have hc : cidx = 2 * (cidx / 2) + 1 := by omega
        have hsib : t.sibling_idx cidx = 2 * (cidx / 2) := by
          rw [MerkleTree.sibling_idx, if_neg hm]
          omega
        have hva : v = a := by
          rw [hc] at hv
          rw [hv] at ha
          exact Option.some_inj.mp ha
        refine ⟨(b.value, cidx % 2 != 0) :: p', ?_, ?_⟩
        · rw [pathAux, if_neg hatroot, hsib, hb, hpar_idx, hp']
          rfl
        · rw [hm1]
          show verifyLoop hash_pair v.value ((b.value, true) :: p') = rt.value
          rw [verifyLoop]
          simp only [if_true]
          rw [hva]
          simpa [Node.as_parent] using hrep

end PathLemmas

/-! ### Glue lemmas connecting `new`, `path`, `proof`, and the root -/

section GlueLemmas

variable {H : Type} [DecidableEq H] [Inhabited H]
variable (hash_data : List Nat → H) (hash_pair : H → H → H)

lemma pathAux_root {t : MerkleTree H} :
    ∀ fuel, 0 < fuel → pathAux t fuel (t.size - 1) = some [] := by
  intro fuel hf
  cases fuel with
  | zero => omega
  | succ f => rw [pathAux, if_pos rfl]

/-- On any node list a `get?` hit rewrites the corresponding `getD`. -/
lemma getD_of_get? {t : MerkleTree H} {n : Nat} {v : Node H}
    (h : t.nodes.get? n = some v) : t.nodes.getD n default = v := by
  rw [List.getD_eq_get?, h]
  rfl

/-- On a tree built from exactly divisible data, the `path` walk succeeds
from every index below `size` and replaying it with the verifier loop
rebuilds the root hash. -/
lemma path_replay_of_new {data : List Nat} {L : Nat} {t : MerkleTree H}
    (hdvd : data.length % L = 0) (hL : 1 ≤ L)
    (hnew : MerkleTree.new hash_data hash_pair data L = some t)
    {idx : Nat} {v : Node H} (hidx : idx < t.size) (hv : t.nodes.get? idx = some v) :
    ∃ p, t.path idx = some p ∧ verifyLoop hash_pair v.value p = t.root := by
  obtain ⟨ht1, ht2, hpar⟩ := new_wf hash_data hash_pair hdvd hnew
  have hts : t.size = t.nodes.length := rfl
  have hrootlt : 2 * L - 2 < t.nodes.length := by omega
  have hroot : t.nodes.get? (2 * L - 2) =
      some (t.nodes.get ⟨2 * L - 2, hrootlt⟩) := List.get?_eq_get hrootlt
  have hle : idx ≤ 2 * L - 2 := by omega
  obtain ⟨p, hp, hrep⟩ := pathAux_replay hash_pair ht1 hL ht2 hpar hroot
    (2 * t.size + 2) idx v hle (by omega) hv
  refine ⟨p, hp, ?_⟩
  rw [hrep, MerkleTree.root, List.getD_eq_get?]
  have hsz1 : t.size - 1 = 2 * L - 2 := by omega
  rw [hsz1, hroot]
  rfl

/-- Size bookkeeping of any successfully built tree (no divisibility
assumption): the node array holds one node per chunk plus `leaves - 1`
internal nodes. -/
lemma new_some_size {data : List Nat} {leaves : Nat} {t : MerkleTree H}
    (hnew : MerkleTree.new hash_data hash_pair data leaves = some t) :
    t.leaves = leaves ∧
      t.nodes.length = (chunksList (data.length / leaves) data).length + (leaves - 1) := by
  have hL : leaves ≠ 0 := by
    intro h
    rw [h] at hnew
    simp [MerkleTree.new] at hnew
  have hcs : data.length / leaves ≠ 0 := by
    intro h
    rw [MerkleTree.new] at hnew
    rw [if_neg hL] at hnew
    simp only [h, if_pos rfl] at hnew
    exact absurd hnew (by simp)
  rw [MerkleTree.new] at hnew
  rw [if_neg hL] at hnew
  simp only [if_neg hcs] at hnew
  cases hb : buildFrom hash_pair
      ((chunksList (data.length / leaves) data).map (Node.as_leaf hash_data)) 0
      (leaves - 1) with
  | none => rw [hb] at hnew; exact absurd hnew (by simp)
  | some out =>
    rw [hb] at hnew
    simp only [Option.map_some', Option.some_inj] at hnew
    obtain ⟨hlen, -, -⟩ := buildFrom_spec hash_pair (leaves - 1) 0 _ out hb
    rw [List.length_map] at hlen
    have ht1 : t.leaves = leaves := by rw [← hnew]
    have ht2 : t.nodes = out := by rw [← hnew]
    exact ⟨ht1, by rw [ht2]; omega⟩

lemma verifyLoop_eq_foldl :
    ∀ (pf : List (H × Bool)) (c : H),
      verifyLoop hash_pair c pf =
        pf.foldl
          (fun candidate p =>
            if p.2 then hash_pair candidate p.1 else hash_pair p.1 candidate) c := by
  intro pf
  induction pf with
  | nil => intro c; rfl
  | cons hd tl ih =>
    intro c
    cases hd with
    | mk hash parity => rw [verifyLoop, List.foldl_cons, ih]

end GlueLemmas

/-! ### Claim theorems -/

/-- C1: for every tree built by `MerkleTree::new(data, leaves)` with
`leaves` a power of two `≥ 1` and `data.len()` an exact multiple of
`leaves`, and for every pair `(item, idx)` with `idx < size()` and
`hash_data(item) == nodes[idx].value`, `proof(item, idx)` returns `Some(p)`
and `verify_proof(item, tree.root(), p)` returns `true`. -/
theorem c1_round_trip {H : Type} [DecidableEq H] [Inhabited H]
    (hash_data : List Nat → H) (hash_pair : H → H → H)
    (data : List Nat) (leaves : Nat) (t : MerkleTree H) (item : List Nat) (idx : Nat)
    (hpow : ∃ k, leaves = 2 ^ k)
    (hdvd : data.length % leaves = 0)
    (hnew : MerkleTree.new hash_data hash_pair data leaves = some t)
    (hidx : idx < t.size)
    (hhash : t.nodes.get? idx = some ⟨hash_data item⟩) :
    (t.proof hash_data item idx).map (verify_proof hash_data hash_pair item t.root) =
      some true := by
  have hL : 1 ≤ leaves := by
    obtain ⟨k, rfl⟩ := hpow
    exact Nat.one_le_two_pow
  obtain ⟨p, hp, hrep⟩ :=
    path_replay_of_new hash_data hash_pair hdvd hL hnew hidx hhash
  have hproof : t.proof hash_data item idx = some p := by
    rw [MerkleTree.proof, if_neg (by omega), hhash]
    show (if hash_data item = hash_data item then t.path idx else none) = some p
    rw [if_pos rfl]
    exact hp
  have hrep' : verifyLoop hash_pair (hash_data item) p = t.root := hrep
  rw [hproof]
  simp only [Option.map_some', Option.some_inj]
  rw [verify_proof, hrep']
  simp

/-- C1 witness: the tree over `[0,1,2,3]` with 2 leaves, item `[0,1]` at
leaf index 0. -/
theorem c1_round_trip_witness :
    (exTree.proof exHash [0, 1] 0).map
      (verify_proof exHash exPair [0, 1] exTree.root) = some true :=
  c1_round_trip exHash exPair [0, 1, 2, 3] 2 exTree [0, 1] 0
    ⟨1, rfl⟩ (by decide) (by decide) (by decide) (by decide)

/-- C9: `proof(item, idx)` does not restrict `idx` to leaf positions — on a
well-formed tree, every internal index `leaves ≤ idx < size()` whose stored
hash equals `hash_data(item)` also yields a verifying proof. -/
theorem c9_internal_round_trip {H : Type} [DecidableEq H] [Inhabited H]
    (hash_data : List Nat → H) (hash_pair : H → H → H)
    (data : List Nat) (leaves : Nat) (t : MerkleTree H) (item : List Nat) (idx : Nat)
    (hpow : ∃ k, leaves = 2 ^ k)
    (h2 : 2 ≤ leaves)
    (hdvd : data.length % leaves = 0)
    (hnew : MerkleTree.new hash_data hash_pair data leaves = some t)
    (hlo : t.leaves ≤ idx)
    (hidx : idx < t.size)
    (hhash : t.nodes.get? idx = some ⟨hash_data item⟩) :
    (t.proof hash_data item idx).map (verify_proof hash_data hash_pair item t.root) =
      some true := by
  have hL : 1 ≤ leaves := by omega
  obtain ⟨p, hp, hrep⟩ :=
    path_replay_of_new hash_data hash_pair hdvd hL hnew hidx hhash
  have hproof : t.proof hash_data item idx = some p := by
    rw [MerkleTree.proof, if_neg (by omega), hhash]
    show (if hash_data item = hash_data item then t.path idx else none) = some p
    rw [if_pos rfl]
    exact hp
  have hrep' : verifyLoop hash_pair (hash_data item) p = t.root := hrep
  rw [hproof]
  simp only [Option.map_some', Option.some_inj]
  rw [verify_proof, hrep']
  simp

/-- C9 witness: the internal node at index 2 (the root) of the tree over
`[0,1,2,3]` with 2 leaves, with the item whose hash is that node's value. -/
theorem c9_internal_round_trip_witness :
    (exTree.proof exHash [2, 3, 0, 1] 2).map
      (verify_proof exHash exPair [2, 3, 0, 1] exTree.root) = some true :=
  c9_internal_round_trip exHash exPair [0, 1, 2, 3] 2 exTree [2, 3, 0, 1] 2
    ⟨1, rfl⟩ (by decide) (by decide) (by decide) (by decide) (by decide) (by decide)

/-- C6: `verify_proof` is exactly the left fold that starts from
`hash_data(item)`, hashes the candidate on the left of the sibling when the
parity flag is true and on the right when it is false, and finally compares
with `root`; being a Lean function it is total, with no error outcome for
any `item`, `root`, and proof sequence. -/
theorem c6_verify_is_spec_fold {H : Type} [DecidableEq H] [Inhabited H]
    (hash_data : List Nat → H) (hash_pair : H → H → H)
    (item : List Nat) (root : H) (pf : List (H × Bool)) :
    verify_proof hash_data hash_pair item root pf =
      verifySpec hash_data hash_pair item root pf := by
  rw [verify_proof, verifySpec, verifyLoop_eq_foldl]

/-- C7: with `leaves` a power of two and `data.len()` an exact multiple of
`leaves` (and `data.len() ≥ leaves`), the built tree has
`size() == 2*leaves - 1` and `leaves() == leaves`. -/
theorem c7_size_leaves {H : Type} [DecidableEq H] [Inhabited H]
    (hash_data : List Nat → H) (hash_pair : H → H → H)
    (data : List Nat) (leaves : Nat)
    (hpow : ∃ k, leaves = 2 ^ k)
    (hdvd : data.length % leaves = 0)
    (hlen : leaves ≤ data.length) :
    (MerkleTree.new hash_data hash_pair data leaves).map MerkleTree.size =
        some (2 * leaves - 1) ∧
      (MerkleTree.new hash_data hash_pair data leaves).map MerkleTree.leaves =
        some leaves := by
  have hL : 1 ≤ leaves := by
    obtain ⟨k, rfl⟩ := hpow
    exact Nat.one_le_two_pow
  cases hnew : MerkleTree.new hash_data hash_pair data leaves with
  | none =>
    rw [new_eq_none_iff] at hnew
    omega
  | some t =>
    obtain ⟨ht1, ht2, -⟩ := new_wf hash_data hash_pair hdvd hnew
    constructor
    · simp only [Option.map_some', Option.some_inj, MerkleTree.size]
      omega
    · simp only [Option.map_some', Option.some_inj]
      exact ht1

/-- C7 witness: `[0,1,2,3]` with 2 leaves gives size 3 and leaf count 2. -/
theorem c7_size_leaves_witness :
    (MerkleTree.new exHash exPair [0, 1, 2, 3] 2).map MerkleTree.size =
        some (2 * 2 - 1) ∧
      (MerkleTree.new exHash exPair [0, 1, 2, 3] 2).map MerkleTree.leaves =
        some 2 :=
  c7_size_leaves exHash exPair [0, 1, 2, 3] 2 ⟨1, rfl⟩ (by decide) (by decide)

/-- C8: `MerkleTree::new` fails fast (the modelled panic, `none`) exactly
when `leaves == 0` (division by zero) or `data.len() < leaves` (zero chunk
size, `chunks(0)` panic); the success branch is reachable exactly when
`leaves ≥ 1` and `data.len() ≥ leaves`, so no malformed value is returned
on the error inputs. -/
theorem c8_new_fails_fast {H : Type} [DecidableEq H] [Inhabited H]
    (hash_data : List Nat → H) (hash_pair : H → H → H)
    (data : List Nat) (leaves : Nat) :
    MerkleTree.new hash_data hash_pair data leaves = none ↔
      leaves = 0 ∨ data.length < leaves :=
  new_eq_none_iff hash_data hash_pair data leaves

/-- C2 counterexample: the claim puts the right child's hash first, but in
the tree over `[0,1,2,3]` with 2 leaves the internal node at index 2 holds
`hash_pair(nodes[left_idx 2], nodes[right_idx 2]) = [2,3,0,1]`, not
`hash_pair(nodes[right_idx 2], nodes[left_idx 2]) = [0,1,2,3]`. -/
theorem c2_counterexample :
    MerkleTree.new exHash exPair [0, 1, 2, 3] 2 = some exTree ∧
    2 = 2 ^ 1 ∧ ([0, 1, 2, 3] : List Nat).length % 2 = 0 ∧
    exTree.leaves ≤ 2 ∧ 2 < exTree.size ∧
    exTree.nodes.get? (exTree.right_idx 2) = some ⟨[0, 1]⟩ ∧
    exTree.nodes.get? (exTree.left_idx 2) = some ⟨[2, 3]⟩ ∧
    exTree.nodes.get? 2 = some ⟨[2, 3, 0, 1]⟩ ∧
    exTree.nodes.get? 2 ≠ some ⟨exPair [0, 1] [2, 3]⟩ := by
  decide

/-- C2 amended: for every internal index `leaves ≤ i < size()` of a
well-formed tree, `nodes[i]` equals `hash_pair` applied to
`(nodes[leftChild(i)], nodes[rightChild(i)])` — the LEFT child's hash
(flat position `2*(i - leaves) + 1`) is the first operand, matching the
construction `hash_pair(nodes[2*j+1], nodes[2*j])`. -/
theorem c2_amended_child_order {H : Type} [DecidableEq H] [Inhabited H]
    (hash_data : List Nat → H) (hash_pair : H → H → H)
    (data : List Nat) (leaves : Nat) (t : MerkleTree H) (i : Nat)
    (hpow : ∃ k, leaves = 2 ^ k)
    (hdvd : data.length % leaves = 0)
    (hnew : MerkleTree.new hash_data hash_pair data leaves = some t)
    (hlo : leaves ≤ i) (hhi : i < t.size) :
    t.nodes.getD i default =
      Node.as_parent hash_pair (t.nodes.getD (t.left_idx i) default)
        (t.nodes.getD (t.right_idx i) default) := by
  obtain ⟨ht1, ht2, hpar⟩ := new_wf hash_data hash_pair hdvd hnew
  have hts : t.size = t.nodes.length := rfl
  have hj : i - leaves < leaves - 1 := by omega
  obtain ⟨a, b, ha, hb, hp⟩ := hpar (i - leaves) hj
  have hli : t.left_idx i = 2 * (i - leaves) + 1 := by
    rw [MerkleTree.left_idx, ht1]
  have hri : t.right_idx i = 2 * (i - leaves) := by
    rw [MerkleTree.right_idx, ht1]
  have hp' : t.nodes.get? i = some (Node.as_parent hash_pair a b) := by
    have hieq : leaves + (i - leaves) = i := by omega
    rw [hieq] at hp
    exact hp
  rw [hli, hri, getD_of_get? ha, getD_of_get? hb, getD_of_get? hp']

/-- C2 amended witness: internal index 2 of the tree over `[0,1,2,3]`. -/
theorem c2_amended_child_order_witness :
    exTree.nodes.getD 2 default =
      Node.as_parent exPair (exTree.nodes.getD (exTree.left_idx 2) default)
        (exTree.nodes.getD (exTree.right_idx 2) default) :=
  c2_amended_child_order exHash exPair [0, 1, 2, 3] 2 exTree 2
    ⟨1, rfl⟩ (by decide) (by decide) (by decide) (by decide)

/-- C3 counterexample: in the tree over `[0,1,2,3]` with 2 leaves, the proof
entry recorded at current index 1 carries the flag `true`, yet the parent
node `[2,3,0,1]` is `hash_pair(current, sibling)` and NOT
`hash_pair(sibling, current) = [0,1,2,3]` — so a true flag marks the
current node as the first (left) pair-hash operand, not the right-hand
(second) operand the claim states. -/
theorem c3_counterexample :
    MerkleTree.new exHash exPair [0, 1, 2, 3] 2 = some exTree ∧
    2 = 2 ^ 1 ∧ ([0, 1, 2, 3] : List Nat).length % 2 = 0 ∧
    exTree.path 1 = some [([0, 1], true)] ∧
    exTree.nodes.get? 1 = some ⟨[2, 3]⟩ ∧
    exTree.nodes.get? (exTree.sibling_idx 1) = some ⟨[0, 1]⟩ ∧
    exTree.nodes.get? (exTree.parent_idx 1) = some ⟨[2, 3, 0, 1]⟩ ∧
    exPair [0, 1] [2, 3] = [0, 1, 2, 3] ∧
    exTree.nodes.get? (exTree.parent_idx 1) ≠ some ⟨exPair [0, 1] [2, 3]⟩ := by
  decide

/-- C3 amended: on a well-formed tree, the entry recorded at each current
index `cidx` strictly below the root is `(nodes[sibling(cidx)].value,
cidx % 2 != 0)` followed by the entries recorded from `parent(cidx)`; the
flag is true exactly when the current index is odd, and a true flag means
the current node is the FIRST (left) operand of the pair hash that forms
its parent, a false flag that the sibling is the first operand. -/
theorem c3_amended_flag_orientation {H : Type} [DecidableEq H] [Inhabited H]
    (hash_data : List Nat → H) (hash_pair : H → H → H)
    (data : List Nat) (leaves : Nat) (t : MerkleTree H) (cidx : Nat)
    (hpow : ∃ k, leaves = 2 ^ k)
    (hdvd : data.length % leaves = 0)
    (hnew : MerkleTree.new hash_data hash_pair data leaves = some t)
    (hcidx : cidx < t.size - 1) :
    (t.path cidx).isSome = true ∧
    (t.path (t.parent_idx cidx)).isSome = true ∧
    (t.path cidx).getD [] =
      ((t.nodes.getD (t.sibling_idx cidx) default).value, cidx % 2 != 0) ::
        (t.path (t.parent_idx cidx)).getD [] ∧
    ((cidx % 2 != 0) = true ↔ cidx % 2 = 1) ∧
    t.nodes.getD (t.parent_idx cidx) default =
      (if cidx % 2 = 1 then
        Node.as_parent hash_pair (t.nodes.getD cidx default)
          (t.nodes.getD (t.sibling_idx cidx) default)
      else
        Node.as_parent hash_pair (t.nodes.getD (t.sibling_idx cidx) default)
          (t.nodes.getD cidx default)) := by
  have hL : 1 ≤ leaves := by
    obtain ⟨k, rfl⟩ := hpow
    exact Nat.one_le_two_pow
  obtain ⟨ht1, ht2, hpar⟩ := new_wf hash_data hash_pair hdvd hnew
  have hts : t.size = t.nodes.length := rfl
  have hL2 : 2 ≤ leaves := by omega
  have hdm : 2 * (cidx / 2) + cidx % 2 = cidx := Nat.div_add_mod cidx 2
  have hmlt : cidx % 2 < 2 := Nat.mod_lt cidx (by omega)
  have hjlt : cidx / 2 < leaves - 1 := by omega
  obtain ⟨a, b, ha, hb, hp⟩ := hpar (cidx / 2) hjlt
  have hpidx : t.parent_idx cidx = leaves + cidx / 2 := by
    rw [MerkleTree.parent_idx, ht1]
    omega
  have hv : t.nodes.get? (t.parent_idx cidx) = some (Node.as_parent hash_pair a b) := by
    rw [hpidx]
    exact hp
  have hrootlt : 2 * leaves - 2 < t.nodes.length := by omega
  have hroot : t.nodes.get? (2 * leaves - 2) =
      some (t.nodes.get ⟨2 * leaves - 2, hrootlt⟩) := List.get?_eq_get hrootlt
  obtain ⟨rest, hrest, -⟩ := pathAux_replay hash_pair ht1 hL ht2 hpar hroot
    (2 * t.size + 1) (leaves + cidx / 2) (Node.as_parent hash_pair a b)
    (by omega) (by omega) hp
  have hpathparent : t.path (t.parent_idx cidx) = some rest := by
    rw [MerkleTree.path, hpidx]
    exact pathAux_mono _ _ _ _ hrest (by omega)
  have hF : 2 * t.size + 2 = (2 * t.size + 1) + 1 := rfl
  by_cases hm : cidx % 2 = 0
  · -- even current index: current is the second operand
    have hsib : t.sibling_idx cidx = 2 * (cidx / 2) + 1 := by
      rw [MerkleTree.sibling_idx, if_pos hm]
      omega
    have hc2 : 2 * (cidx / 2) = cidx := by omega
    have hvb : t.nodes.get? cidx = some b := by
      rw [hc2] at hb
      exact hb
    have hsv : t.nodes.get? (t.sibling_idx cidx) = some a := by
      rw [hsib]
      exact ha
    have hpathc : t.path cidx = some ((a.value, cidx % 2 != 0) :: rest) := by
      rw [MerkleTree.path, hF, pathAux, if_neg (by omega), hsib, ha, hpidx, hrest]
      rfl
    refine ⟨?_, ?_, ?_, ?_, ?_⟩
    · rw [hpathc]; rfl
    · rw [hpathparent]; rfl
    · rw [hpathc, hpathparent, getD_of_get? hsv]
      rfl
    · rw [bne_iff_ne]
      constructor <;> omega
    · rw [getD_of_get? hv, getD_of_get? hvb, getD_of_get? hsv, if_neg (by omega)]
  · -- odd current index: current is the first operand
    have hm1 : cidx % 2 = 1 := by omega
    have hsib : t.sibling_idx cidx = 2 * (cidx / 2) := by
      rw [MerkleTree.sibling_idx, if_neg hm]
      omega
    have hc2 : 2 * (cidx / 2) + 1 = cidx := by omega
    have hva : t.nodes.get? cidx = some a := by
      rw [hc2] at ha
      exact ha
    have hsv : t.nodes.get? (t.sibling_idx cidx) = some b := by
      rw [hsib]
      exact hb
    have hpathc : t.path cidx = some ((b.value, cidx % 2 != 0) :: rest) := by
      rw [MerkleTree.path, hF, pathAux, if_neg (by omega), hsib, hb, hpidx, hrest]
      rfl
    refine ⟨?_, ?_, ?_, ?_, ?_⟩
    · rw [hpathc]; rfl
    · rw [hpathparent]; rfl
    · rw [hpathc, hpathparent, getD_of_get? hsv]
      rfl
    · rw [bne_iff_ne]
      constructor <;> omega
    · rw [getD_of_get? hv, getD_of_get? hva, getD_of_get? hsv, if_pos hm1]

/-- C3 amended witness: current index 1 (odd) of the tree over `[0,1,2,3]`
with 2 leaves. -/
theorem c3_amended_flag_orientation_witness :
    (exTree.path 1).isSome = true ∧
    (exTree.path (exTree.parent_idx 1)).isSome = true ∧
    (exTree.path 1).getD [] =
      ((exTree.nodes.getD (exTree.sibling_idx 1) default).value, 1 % 2 != 0) ::
        (exTree.path (exTree.parent_idx 1)).getD [] ∧
    ((1 % 2 != 0) = true ↔ 1 % 2 = 1) ∧
    exTree.nodes.getD (exTree.parent_idx 1) default =
      (if 1 % 2 = 1 then
        Node.as_parent exPair (exTree.nodes.getD 1 default)
          (exTree.nodes.getD (exTree.sibling_idx 1) default)
      else
        Node.as_parent exPair (exTree.nodes.getD (exTree.sibling_idx 1) default)
          (exTree.nodes.getD 1 default)) :=
  c3_amended_flag_orientation exHash exPair [0, 1, 2, 3] 2 exTree 1
    ⟨1, rfl⟩ (by decide) (by decide) (by decide)

/-- C4 counterexample: for `data = [0,1,2]` and `leaves = 2` (length not a
multiple of `leaves`, chunk size `3 / 2 = 1 ≥ 1`) the remainder byte is NOT
dropped: `chunks(1)` yields three leaves — the extra trailing chunk `[2]`
becomes a leaf — so the tree has 4 nodes, not `2*2 - 1`. -/
theorem c4_counterexample :
    ([0, 1, 2] : List Nat).length % 2 ≠ 0 ∧
    1 ≤ ([0, 1, 2] : List Nat).length / 2 ∧
    MerkleTree.new exHash exPair [0, 1, 2] 2 = some exTree3 ∧
    exTree3.leaves = 2 ∧
    exTree3.size = 4 ∧
    exTree3.size ≠ 2 * 2 - 1 ∧
    exTree3.nodes.get? 2 = some ⟨exHash [2]⟩ := by
  decide

/-- C4 amended: when `data.len()` is not an exact multiple of `leaves`
(with `leaves ≥ 1` and `chunkSize = data.len()/leaves ≥ 1`), the remainder
bytes are NOT dropped: the chunking covers every byte of `data`, produces
MORE than `leaves` leaf chunks (the trailing remainder becomes extra,
possibly undersized, chunks), and the built tree stores one node per chunk
plus `leaves - 1` internal nodes. -/
theorem c4_amended_remainder_kept {H : Type} [DecidableEq H] [Inhabited H]
    (hash_data : List Nat → H) (hash_pair : H → H → H)
    (data : List Nat) (leaves : Nat)
    (hL : 1 ≤ leaves)
    (hcs : 1 ≤ data.length / leaves)
    (hnd : data.length % leaves ≠ 0) :
    (chunksList (data.length / leaves) data).flatten = data ∧
    leaves < (chunksList (data.length / leaves) data).length ∧
    (MerkleTree.new hash_data hash_pair data leaves).map MerkleTree.size =
      some ((chunksList (data.length / leaves) data).length + (leaves - 1)) := by
  have hdm := Nat.div_add_mod data.length leaves
  have hmlt : data.length % leaves < leaves := Nat.mod_lt _ (by omega)
  have hgt : leaves * (data.length / leaves) < data.length := by omega
  refine ⟨chunksList_join (by omega) data, chunksList_length_gt (by omega) hgt, ?_⟩
  cases hnew : MerkleTree.new hash_data hash_pair data leaves with
  | none =>
    rw [new_eq_none_iff] at hnew
    have hge : 1 * leaves ≤ data.length := (Nat.le_div_iff_mul_le (by omega)).mp hcs
    omega
  | some t =>
    obtain ⟨-, ht2⟩ := new_some_size hash_data hash_pair hnew
    simp only [Option.map_some', Option.some_inj, MerkleTree.size]
    omega

/-- C4 amended witness: `[0,1,2]` with 2 leaves — three chunks covering all
bytes, four tree nodes. -/
theorem c4_amended_remainder_kept_witness :
    (chunksList (([0, 1, 2] : List Nat).length / 2) [0, 1, 2]).flatten = [0, 1, 2] ∧
    2 < (chunksList (([0, 1, 2] : List Nat).length / 2) [0, 1, 2]).length ∧
    (MerkleTree.new exHash exPair [0, 1, 2] 2).map MerkleTree.size =
      some ((chunksList (([0, 1, 2] : List Nat).length / 2) [0, 1, 2]).length + (2 - 1)) :=
  c4_amended_remainder_kept exHash exPair [0, 1, 2] 2 (by decide) (by decide) (by decide)

/-- C5 counterexample: on the tree built from `[0,1,2,3,4,5,6]` with 4
leaves (a legitimately built tree: power-of-two leaf count, but length 7 is
not a multiple of 4), index 0 is in range and the item's hash matches
`nodes[0]`, yet `proof` does NOT return `Some`: the Rust `path` loop gets
stuck at index 7 (`parent_idx 7 = 7`) and never returns (modelled as
`none`). -/
theorem c5_counterexample :
    MerkleTree.new exHash exPair [0, 1, 2, 3, 4, 5, 6] 4 = some exTree7 ∧
    0 < exTree7.size ∧
    exTree7.nodes.get? 0 = some ⟨exHash [0]⟩ ∧
    exTree7.proof exHash [0] 0 = none := by
  decide

/-- C5 amended: on a tree built with power-of-two `leaves` from data whose
length is an exact multiple of `leaves`, `proof(item, idx)` returns `None`
exactly when `idx ≥ size()` or `hash_data(item) ≠ nodes[idx].value`, and
`Some` of the sibling path otherwise; the out-of-range test short-circuits
before the node array is touched. -/
theorem c5_amended_none_iff {H : Type} [DecidableEq H] [Inhabited H]
    (hash_data : List Nat → H) (hash_pair : H → H → H)
    (data : List Nat) (leaves : Nat) (t : MerkleTree H) (item : List Nat) (idx : Nat)
    (hpow : ∃ k, leaves = 2 ^ k)
    (hdvd : data.length % leaves = 0)
    (hnew : MerkleTree.new hash_data hash_pair data leaves = some t) :
    t.proof hash_data item idx = none ↔
      t.size ≤ idx ∨ t.nodes.get? idx ≠ some ⟨hash_data item⟩ := by
  have hL : 1 ≤ leaves := by
    obtain ⟨k, rfl⟩ := hpow
    exact Nat.one_le_two_pow
  constructor
  · intro hnone
    by_contra hcon
    push_neg at hcon
    obtain ⟨hidx, hval⟩ := hcon
    obtain ⟨p, hp, -⟩ := path_replay_of_new hash_data hash_pair hdvd hL hnew hidx hval
    rw [MerkleTree.proof, if_neg (by omega), hval] at hnone
    have hnone' : (if hash_data item = hash_data item then t.path idx else none) =
        none := hnone
    rw [if_pos rfl, hp] at hnone'
    exact absurd hnone' (by simp)
  · intro hcond
    rw [MerkleTree.proof]
    by_cases hge : t.size ≤ idx
    · rw [if_pos hge]
    · rw [if_neg hge]
      have hne : t.nodes.get? idx ≠ some ⟨hash_data item⟩ := by
        rcases hcond with h | h
        · exact absurd h hge
        · exact h
      cases hg : t.nodes.get? idx with
      | none => rfl
      | some nd =>
        have hval : ¬ hash_data item = nd.value := by
          intro h
          apply hne
          rw [hg]
          have hnd : (⟨hash_data item⟩ : Node H) = nd := by rw [h]
          rw [hnd]
        show (if hash_data item = nd.value then t.path idx else none) = none
        rw [if_neg hval]

/-- C5 amended witness: a mismatching item at a valid index of the tree
over `[0,1,2,3]`. -/
theorem c5_amended_none_iff_witness :
    exTree.proof exHash [9, 9] 0 = none ↔
      exTree.size ≤ 0 ∨ exTree.nodes.get? 0 ≠ some ⟨exHash [9, 9]⟩ :=
  c5_amended_none_iff exHash exPair [0, 1, 2, 3] 2 exTree [9, 9] 0
    ⟨1, rfl⟩ (by decide) (by decide)

/-- C10 counterexample: on the tree built from `[0,1,2,3,4,5,6]` with 4
leaves (power of two, in-range start index 0), iterating `parent_idx` from
0 reaches index 7, where `parent_idx 7 = 7`: the index stops increasing,
never reaches `size() - 1 = 9`, and the `path` loop diverges (modelled as
`none`). -/
theorem c10_counterexample :
    MerkleTree.new exHash exPair [0, 1, 2, 3, 4, 5, 6] 4 = some exTree7 ∧
    exTree7.leaves = 2 ^ 2 ∧
    0 < exTree7.size ∧
    exTree7.parent_idx (exTree7.parent_idx (exTree7.parent_idx 0)) = 7 ∧
    exTree7.parent_idx 7 = 7 ∧
    7 ≠ exTree7.size - 1 ∧
    exTree7.path 0 = none := by
  decide

/-- C10 amended: on a tree built with power-of-two `leaves ≥ 1` from data
whose length is an exact multiple of `leaves`, for every start index
strictly below the root: `parent_idx` strictly increases, never overshoots
the root, the sibling access stays in bounds, and the `path` loop
terminates at the root (and started at the root it records nothing). -/
theorem c10_amended_termination {H : Type} [DecidableEq H] [Inhabited H]
    (hash_data : List Nat → H) (hash_pair : H → H → H)
    (data : List Nat) (leaves : Nat) (t : MerkleTree H) (cidx : Nat)
    (hpow : ∃ k, leaves = 2 ^ k)
    (hdvd : data.length % leaves = 0)
    (hnew : MerkleTree.new hash_data hash_pair data leaves = some t)
    (hcidx : cidx < t.size - 1) :
    cidx < t.parent_idx cidx ∧
    t.parent_idx cidx ≤ t.size - 1 ∧
    t.sibling_idx cidx < t.size ∧
    (t.path cidx).isSome = true ∧
    t.path (t.size - 1) = some [] := by
  have hL : 1 ≤ leaves := by
    obtain ⟨k, rfl⟩ := hpow
    exact Nat.one_le_two_pow
  obtain ⟨ht1, ht2, hpar⟩ := new_wf hash_data hash_pair hdvd hnew
  have hts : t.size = t.nodes.length := rfl
  have hdm : 2 * (cidx / 2) + cidx % 2 = cidx := Nat.div_add_mod cidx 2
  have hmlt : cidx % 2 < 2 := Nat.mod_lt cidx (by omega)
  have hp1 : t.parent_idx cidx = cidx / 2 + leaves := by
    rw [MerkleTree.parent_idx, ht1]
  refine ⟨?_, ?_, ?_, ?_, ?_⟩
  · rw [hp1]; omega
  · rw [hp1]; omega
  · rw [MerkleTree.sibling_idx]
    by_cases hm : cidx % 2 = 0
    · rw [if_pos hm]; omega
    · rw [if_neg hm]; omega
  · have hlt : cidx < t.nodes.length := by omega
    have hg : t.nodes.get? cidx = some (t.nodes.get ⟨cidx, hlt⟩) :=
      List.get?_eq_get hlt
    obtain ⟨p, hp, -⟩ :=
      path_replay_of_new hash_data hash_pair hdvd hL hnew (by omega) hg
    rw [hp]
    rfl
  · rw [MerkleTree.path]
    exact pathAux_root _ (by omega)

/-- C10 amended witness: start index 0 of the tree over `[0,1,2,3]` with 2
leaves. -/
theorem c10_amended_termination_witness :
    0 < exTree.parent_idx 0 ∧
    exTree.parent_idx 0 ≤ exTree.size - 1 ∧
    exTree.sibling_idx 0 < exTree.size ∧
    (exTree.path 0).isSome = true ∧
    exTree.path (exTree.size - 1) = some [] :=
  c10_amended_termination exHash exPair [0, 1, 2, 3] 2 exTree 0
    ⟨1, rfl⟩ (by decide) (by decide) (by decide)
